import Mathlib

/-!
Shallow embedding of the secret-santa backend (`src/backend/src/secretsanta`):
`pairings.py` (pairing generation and couples constraints) and `crypto.py`
(one-time-pad token encoding), together with the reference decoder
`_base64url_fragment_to_message` from `tests/secretsanta/crypto_test.py`.

Bytes are `Nat`s below 256, text is `List Char` (Unicode code points, as in a
Python `str`), and every random draw of the Python code (`secrets.randbelow`,
`secrets.token_bytes`) is an explicit parameter of the Lean function, so the
theorems quantify over all draws the code can make.
-/

namespace TSS

/-- Errors of `pairings.py`: `ValueError`, raised by `generate_pairings` when
fewer than two participants are given, and `PairingGenerationError`, raised by
`generate_valid_pairings` when no candidate within `max_retries` satisfies the
couples constraint. -/
inductive PairingError where
  | invalidInput
  | generationFailed
deriving DecidableEq

/-- `violates_couples_constraint` from `pairings.py`: the double loop over
pairings and couples, returning `True` at the first `(giver, receiver)` that
matches a couple `(person1, person2)` in either order. -/
def violates_couples_constraint (pairings couples : List (String × String)) : Bool :=
  pairings.any fun gr => couples.any fun pq =>
    (gr.1 == pq.1 && gr.2 == pq.2) || (gr.1 == pq.2 && gr.2 == pq.1)

/-- The pairing list built by the loop of `generate_pairings`:
`participants[i]` gives to `participants[(i + displacement) % tot]` for every
`i` in `range(tot)`. -/
def cyclicPairings (participants : List String) (displacement : Nat) :
    List (String × String) :=
  (List.range participants.length).map fun i =>
    (participants.getD i "",
      participants.getD ((i + displacement) % participants.length) "")

/-- `generate_pairings` from `pairings.py`.  The random draw
`displacement = secrets.randbelow(tot - 1) + 1` is an explicit argument: the
draws the code can make are exactly `1 ≤ displacement ≤ tot - 1`.  The
`ValueError` branch is the `.error` case. -/
def generate_pairings (participants : List String) (displacement : Nat) :
    Except PairingError (List (String × String)) :=
  if participants.length < 2 then .error .invalidInput
  else .ok (cyclicPairings participants displacement)

/-- The retry loop of `generate_valid_pairings`: `fuel` iterations remain and
`attempt` iterations already ran; `draws k` is the displacement drawn on
attempt `k` (0-based). -/
def generateValidPairingsLoop (participants : List String)
    (couples : List (String × String)) (draws : Nat → Nat) :
    Nat → Nat → Except PairingError (List (String × String) × Nat)
  | 0, _ => .error .generationFailed
  | fuel + 1, attempt =>
    match generate_pairings participants (draws attempt) with
    | .error e => .error e
    | .ok candidates =>
      if violates_couples_constraint candidates couples then
        generateValidPairingsLoop participants couples draws fuel (attempt + 1)
      else
        .ok (candidates, attempt + 1)

/-- `generate_valid_pairings` from `pairings.py`: `for attempt in
range(max_retries)` draws a candidate and returns the first one that does not
violate the couples constraint together with `attempt + 1`; when the loop ends
(immediately so when `max_retries ≤ 0`, since `range` is then empty) it raises
`PairingGenerationError`. -/
def generate_valid_pairings (participants : List String)
    (couples : List (String × String)) (max_retries : Int) (draws : Nat → Nat) :
    Except PairingError (List (String × String) × Nat) :=
  generateValidPairingsLoop participants couples draws max_retries.toNat 0

/-- One step of the receiver chain of a generated pairing list, at the index
level: the giver at index `i` is assigned the receiver at index
`(i + displacement) % n`. -/
def nextIdx (displacement n i : Nat) : Nat := (i + displacement) % n

/-- Following the receiver chain `k` steps starting from index `s`. -/
def chainFrom (displacement n s : Nat) : Nat → Nat
  | 0 => s
  | k + 1 => nextIdx displacement n (chainFrom displacement n s k)

/-- UTF-8 encoding of one code point, as Python `str.encode("utf-8")` encodes
each character of a `str`. -/
def utf8EncodeChar (c : Char) : List Nat :=
  if c.toNat < 128 then [c.toNat]
  else if c.toNat < 2048 then [192 + c.toNat / 64, 128 + c.toNat % 64]
  else if c.toNat < 65536 then
    [224 + c.toNat / 4096, 128 + c.toNat / 64 % 64, 128 + c.toNat % 64]
  else
    [240 + c.toNat / 262144, 128 + c.toNat / 4096 % 64, 128 + c.toNat / 64 % 64,
      128 + c.toNat % 64]

/-- UTF-8 encoding of a string (Python `str.encode("utf-8")`). -/
def utf8Encode : List Char → List Nat
  | [] => []
  | c :: rest => utf8EncodeChar c ++ utf8Encode rest

/-- A UTF-8 continuation byte. -/
def isCont (b : Nat) : Bool := 128 ≤ b && b < 192

/-- A valid two-byte UTF-8 sequence head: lead byte `C2`-`DF` (so no overlong
form) followed by a continuation byte. -/
def twoByteOk (b b2 : Nat) : Bool := (194 ≤ b && b < 224) && isCont b2

/-- The code point of a two-byte UTF-8 sequence. -/
def twoByteVal (b b2 : Nat) : Nat := (b - 192) * 64 + (b2 - 128)

/-- The code point of a three-byte UTF-8 sequence. -/
def threeByteVal (b b2 b3 : Nat) : Nat :=
  (b - 224) * 4096 + (b2 - 128) * 64 + (b3 - 128)

/-- A valid three-byte UTF-8 sequence head: lead byte `E0`-`EF`, two
continuation bytes, no overlong form, no surrogate. -/
def threeByteOk (b b2 b3 : Nat) : Bool :=
  (224 ≤ b && b < 240) && isCont b2 && isCont b3 &&
    decide (2048 ≤ threeByteVal b b2 b3) &&
    (decide (threeByteVal b b2 b3 < 55296) || decide (57344 ≤ threeByteVal b b2 b3))

/-- The code point of a four-byte UTF-8 sequence. -/
def fourByteVal (b b2 b3 b4 : Nat) : Nat :=
  (b - 240) * 262144 + (b2 - 128) * 4096 + (b3 - 128) * 64 + (b4 - 128)

/-- A valid four-byte UTF-8 sequence head: lead byte `F0`-`F4`, three
continuation bytes, no overlong form, in Unicode range. -/
def fourByteOk (b b2 b3 b4 : Nat) : Bool :=
  (240 ≤ b && b < 245) && isCont b2 && isCont b3 && isCont b4 &&
    decide (65536 ≤ fourByteVal b b2 b3 b4) && decide (fourByteVal b b2 b3 b4 < 1114112)

/-- Strict UTF-8 decoding, as Python `bytes.decode("utf-8")`: `none` on
malformed input (bad or truncated lead byte, non-continuation tail, overlong
form, surrogate, or out-of-range code point).  The list shapes are matched up
front so that each sequence class can read its lookahead bytes. -/
def utf8Decode : List Nat → Option (List Char)
  | [] => some []
  | [b] =>
    if b < 128 then (utf8Decode []).map fun cs => Char.ofNat b :: cs else none
  | [b, b2] =>
    if b < 128 then (utf8Decode [b2]).map fun cs => Char.ofNat b :: cs
    else if twoByteOk b b2 then
      (utf8Decode []).map fun cs => Char.ofNat (twoByteVal b b2) :: cs
    else none
  | [b, b2, b3] =>
    if b < 128 then (utf8Decode [b2, b3]).map fun cs => Char.ofNat b :: cs
    else if twoByteOk b b2 then
      (utf8Decode [b3]).map fun cs => Char.ofNat (twoByteVal b b2) :: cs
    else if threeByteOk b b2 b3 then
      (utf8Decode []).map fun cs => Char.ofNat (threeByteVal b b2 b3) :: cs
    else none
  | b :: b2 :: b3 :: b4 :: rest =>
    if b < 128 then
      (utf8Decode (b2 :: b3 :: b4 :: rest)).map fun cs => Char.ofNat b :: cs
    else if twoByteOk b b2 then
      (utf8Decode (b3 :: b4 :: rest)).map fun cs => Char.ofNat (twoByteVal b b2) :: cs
    else if threeByteOk b b2 b3 then
      (utf8Decode (b4 :: rest)).map fun cs => Char.ofNat (threeByteVal b b2 b3) :: cs
    else if fourByteOk b b2 b3 b4 then
      (utf8Decode rest).map fun cs => Char.ofNat (fourByteVal b b2 b3 b4) :: cs
    else none

/-- Python `str.ljust(n)`: right-pad with ASCII spaces to `n` characters,
never truncating. -/
def ljust (s : List Char) (n : Nat) : List Char :=
  s ++ List.replicate (n - s.length) ' '

/-- `bytes(a ^ b for a, b in zip(xs, ys))`: byte-wise XOR, truncated to the
shorter input as Python `zip` is. -/
def xorBytes (xs ys : List Nat) : List Nat :=
  (xs.zip ys).map fun ab => ab.1 ^^^ ab.2

/-- The standard base64 alphabet (RFC 4648 §4), used by `base64.b64encode`. -/
def b64Table : List Char :=
  ['A', 'B', 'C', 'D', 'E', 'F', 'G', 'H', 'I', 'J', 'K', 'L', 'M', 'N', 'O', 'P',
   'Q', 'R', 'S', 'T', 'U', 'V', 'W', 'X', 'Y', 'Z', 'a', 'b', 'c', 'd', 'e', 'f',
   'g', 'h', 'i', 'j', 'k', 'l', 'm', 'n', 'o', 'p', 'q', 'r', 's', 't', 'u', 'v',
   'w', 'x', 'y', 'z', '0', '1', '2', '3', '4', '5', '6', '7', '8', '9', '+', '/']

/-- The URL-safe base64 alphabet (RFC 4648 §5: `-` and `_` in place of `+` and
`/`), used by `base64.urlsafe_b64encode`. -/
def b64UrlTable : List Char :=
  ['A', 'B', 'C', 'D', 'E', 'F', 'G', 'H', 'I', 'J', 'K', 'L', 'M', 'N', 'O', 'P',
   'Q', 'R', 'S', 'T', 'U', 'V', 'W', 'X', 'Y', 'Z', 'a', 'b', 'c', 'd', 'e', 'f',
   'g', 'h', 'i', 'j', 'k', 'l', 'm', 'n', 'o', 'p', 'q', 'r', 's', 't', 'u', 'v',
   'w', 'x', 'y', 'z', '0', '1', '2', '3', '4', '5', '6', '7', '8', '9', '-', '_']

/-- Base64 encoding over alphabet `t`: three bytes become four alphabet
characters, a two-byte tail becomes three characters and one `=`, a one-byte
tail two characters and two `=`. -/
def b64EncodeWith (t : List Char) : List Nat → List Char
  | a :: b :: c :: rest =>
    t.getD (a / 4) '?' :: t.getD ((a % 4) * 16 + b / 16) '?' ::
      t.getD ((b % 16) * 4 + c / 64) '?' :: t.getD (c % 64) '?' ::
        b64EncodeWith t rest
  | [a, b] =>
    [t.getD (a / 4) '?', t.getD ((a % 4) * 16 + b / 16) '?', t.getD ((b % 16) * 4) '?', '=']
  | [a] => [t.getD (a / 4) '?', t.getD ((a % 4) * 16) '?', '=', '=']
  | [] => []

/-- The index of character `c` in alphabet `t` (one base64 digit). -/
def b64DecChar (t : List Char) (c : Char) : Option Nat :=
  t.findIdx? fun x => x == c

/-- Base64 decoding over alphabet `t`, strict on the well-formed texts the
encoder emits: groups of four characters, `=` only padding the final group. -/
def b64DecodeWith (t : List Char) : List Char → Option (List Nat)
  | [] => some []
  | c1 :: c2 :: c3 :: c4 :: rest =>
    match b64DecChar t c1, b64DecChar t c2 with
    | some s1, some s2 =>
      if c3 = '=' then
        if c4 = '=' ∧ rest = [] then some [s1 * 4 + s2 / 16] else none
      else
        match b64DecChar t c3 with
        | some s3 =>
          if c4 = '=' then
            if rest = [] then some [s1 * 4 + s2 / 16, (s2 % 16) * 16 + s3 / 4] else none
          else
            match b64DecChar t c4 with
            | some s4 =>
              (b64DecodeWith t rest).map fun bs =>
                (s1 * 4 + s2 / 16) :: ((s2 % 16) * 16 + s3 / 4) :: ((s3 % 4) * 64 + s4) :: bs
            | none => none
        | none => none
    | _, _ => none
  | _ => none

/-- The serialized payload `json.dumps({"v": 1, "k": kb64, "c": cb64},
separators=(",", ":"))` of `crypto.py`.  The key and ciphertext fields are
base64 texts, which contain no character JSON escapes, so the compact
serialization is exactly this concatenation. -/
def jsonPayload (kb64 cb64 : List Char) : List Char :=
  ("\x7b\"v\":1,\"k\":\"").toList ++ kb64 ++ ("\",\"c\":\"").toList ++ cb64 ++
    ("\"\x7d").toList

/-- Python `str.rstrip(c)`: remove every trailing occurrence of `c`. -/
def rstripChar (c : Char) (l : List Char) : List Char :=
  (l.reverse.dropWhile fun x => x == c).reverse

/-- The re-padding loop of the decoder:
`while len(fragment) % 4: fragment += "="`. -/
def addB64Padding (l : List Char) : List Char :=
  l ++ List.replicate ((4 - l.length % 4) % 4) '='

/-- The code points of the characters Python `str.strip()` removes: those
with `c.isspace()` true. -/
def pySpaceCodes : List Nat :=
  [9, 10, 11, 12, 13, 28, 29, 30, 31, 32, 133, 160, 5760,
   8192, 8193, 8194, 8195, 8196, 8197, 8198, 8199, 8200, 8201, 8202,
   8232, 8233, 8239, 8287, 12288]

/-- Whether Python `str.strip()` removes the character `c`. -/
def isPySpace (c : Char) : Bool := pySpaceCodes.contains c.toNat

/-- Python `str.strip()`: remove leading and trailing whitespace. -/
def pyStrip (l : List Char) : List Char :=
  ((l.dropWhile isPySpace).reverse.dropWhile isPySpace).reverse

/-- `message_to_base64url_fragment` from `crypto.py`.  The one-time pad
`key = secrets.token_bytes(len(message_bytes))` is an explicit argument: the
draws the code can make are exactly the byte lists of that length. -/
def message_to_base64url_fragment (message : List Char) (padding_length : Nat)
    (key : List Nat) : List Char :=
  let message_bytes := utf8Encode (ljust message padding_length)
  let ciphertext := xorBytes message_bytes key
  let json_str := jsonPayload (b64EncodeWith b64Table key) (b64EncodeWith b64Table ciphertext)
  rstripChar '=' (b64EncodeWith b64UrlTable (utf8Encode json_str))

/-- Match a literal prefix, returning the rest of the input. -/
def dropLit : List Char → List Char → Option (List Char)
  | [], s => some s
  | _ :: _, [] => none
  | c :: cs, d :: ds => if c = d then dropLit cs ds else none

/-- The value of a run of decimal digits. -/
def digitsToNat (ds : List Char) : Nat :=
  ds.foldl (fun acc c => acc * 10 + (c.toNat - 48)) 0

/-- The `json.loads` step of the decoder, restricted to the wire format the
encoder emits: an object `\x7b"v":<digits>,"k":"<text>","c":"<text>"\x7d`
whose two texts contain no quote or escape.  On every such input `json.loads`
returns exactly these three fields. -/
def parsePayload (s : List Char) : Option (Nat × List Char × List Char) := do
  let s1 ← dropLit (("\x7b\"v\":").toList) s
  let ds := s1.takeWhile Char.isDigit
  if ds.isEmpty then none else do
  let s2 ← dropLit ((",\"k\":\"").toList) (s1.dropWhile Char.isDigit)
  let ks := s2.takeWhile fun c => c != '"'
  let s3 ← dropLit (("\",\"c\":\"").toList) (s2.dropWhile fun c => c != '"')
  let cs := s3.takeWhile fun c => c != '"'
  let s4 ← dropLit (("\"\x7d").toList) (s3.dropWhile fun c => c != '"')
  if s4.isEmpty then some (digitsToNat ds, ks, cs) else none

/-- `_base64url_fragment_to_message` from `tests/secretsanta/crypto_test.py`
(without its leading underscore): re-pad with `=`, URL-safe base64 decode,
UTF-8 decode, parse the JSON payload, check the version, base64 decode key
and ciphertext, XOR them together, UTF-8 decode and `strip()` the result. -/
def base64url_fragment_to_message (fragment : List Char) : Option (List Char) := do
  let json_bytes ← b64DecodeWith b64UrlTable (addB64Padding fragment)
  let json_str ← utf8Decode json_bytes
  let (v, kb64, cb64) ← parsePayload json_str
  if v = 1 then do
    let key ← b64DecodeWith b64Table kb64
    let ciphertext ← b64DecodeWith b64Table cb64
    let plaintext ← utf8Decode (xorBytes ciphertext key)
    some (pyStrip plaintext)
  else none

/-! ### Pairing lemmas -/

/-- For `0 < d < n` the shifted index differs from the original one. -/
theorem nextIdx_ne (d n i : Nat) (hd1 : 1 ≤ d) (hdn : d < n) (hi : i < n) :
    nextIdx d n i ≠ i := by
  unfold nextIdx
  intro heq
  rcases Nat.lt_or_ge (i + d) n with h | h
  · rw [Nat.mod_eq_of_lt h] at heq
    omega
  · rw [Nat.mod_eq_sub_mod h, Nat.mod_eq_of_lt (by omega)] at heq
    omega

/-- The success branch of `generate_pairings`. -/
theorem generate_pairings_ok (participants : List String) (displacement : Nat)
    (h2 : 2 ≤ participants.length) :
    generate_pairings participants displacement =
      .ok (cyclicPairings participants displacement) := by
  unfold generate_pairings
  rw [if_neg (by omega)]

/-- Membership in `cyclicPairings` comes from an index below the length. -/
theorem mem_cyclicPairings (participants : List String) (d : Nat)
    (pr : String × String) (hpr : pr ∈ cyclicPairings participants d) :
    ∃ i < participants.length,
      pr = (participants.getD i "",
        participants.getD ((i + d) % participants.length) "") := by
  unfold cyclicPairings at hpr
  rw [List.mem_map] at hpr
  obtain ⟨i, hi, heq⟩ := hpr
  exact ⟨i, List.mem_range.mp hi, heq.symm⟩

/-- C4: for every participant list of length at least 2 with unique
identifiers and every displacement `generate_pairings` can draw
(`1 ≤ d ≤ N - 1`), no assignment of the output pairs a giver with itself. -/
theorem generate_pairings_no_self_assignment (participants : List String)
    (displacement : Nat) (h2 : 2 ≤ participants.length)
    (hnd : participants.Nodup) (hd1 : 1 ≤ displacement)
    (hdN : displacement < participants.length)
    (prs : List (String × String))
    (hok : generate_pairings participants displacement = .ok prs) :
    ∀ pr ∈ prs, pr.1 ≠ pr.2 := by
  rw [generate_pairings_ok participants displacement h2] at hok
  cases hok
  intro pr hpr
  obtain ⟨i, hi, hpr⟩ := mem_cyclicPairings participants displacement pr hpr
  subst hpr
  have hj : (i + displacement) % participants.length < participants.length :=
    Nat.mod_lt _ (by omega)
  have hne : (i + displacement) % participants.length ≠ i :=
    nextIdx_ne displacement participants.length i hd1 hdN hi
  simp only [List.getD_eq_getElem?_getD, List.getElem?_eq_getElem hi,
    List.getElem?_eq_getElem hj, Option.getD_some]
  intro heq
  exact hne ((hnd.getElem_inj_iff).mp heq.symm)

/-- Witness for C4 at a concrete input. -/
theorem generate_pairings_no_self_assignment_witness :
    2 ≤ List.length ["A", "B", "C"] ∧
    (∀ pr ∈ [("A", "C"), ("B", "A"), ("C", "B")], Prod.fst pr ≠ Prod.snd pr) :=
  ⟨by decide,
    generate_pairings_no_self_assignment ["A", "B", "C"] 2 (by decide) (by decide)
      (by decide) (by decide) [("A", "C"), ("B", "A"), ("C", "B")] rfl⟩

/-- C7: `generate_pairings` fails with `ValueError` exactly when fewer than
two participants are given, and on two or more it returns the cyclic pairing
list without raising. -/
theorem generate_pairings_error_iff_small (participants : List String)
    (displacement : Nat) :
    (generate_pairings participants displacement = .error .invalidInput ↔
      participants.length < 2) ∧
    (2 ≤ participants.length →
      generate_pairings participants displacement =
        .ok (cyclicPairings participants displacement)) := by
  constructor
  · unfold generate_pairings
    split
    · rename_i h
      exact ⟨fun _ => h, fun _ => rfl⟩
    · rename_i h
      exact ⟨fun hcontra => Except.noConfusion hcontra, fun hlt => absurd hlt h⟩
  · exact generate_pairings_ok participants displacement

/-- C6: `violates_couples_constraint` is `True` exactly when some assignment
matches some couple in one of the two orders. -/
theorem violates_couples_constraint_iff (pairings couples : List (String × String)) :
    violates_couples_constraint pairings couples = true ↔
      ∃ pr ∈ pairings, ∃ cp ∈ couples,
        (pr.1 = cp.1 ∧ pr.2 = cp.2) ∨ (pr.1 = cp.2 ∧ pr.2 = cp.1) := by
  simp [violates_couples_constraint, List.any_eq_true]

/-- If every attempt in the window draws a violating candidate, the retry
loop of `generate_valid_pairings` exhausts its fuel and fails. -/
theorem generateValidPairingsLoop_error (participants : List String)
    (couples : List (String × String)) (draws : Nat → Nat)
    (h2 : 2 ≤ participants.length) :
    ∀ fuel attempt,
      (∀ k, attempt ≤ k → k < attempt + fuel →
        violates_couples_constraint (cyclicPairings participants (draws k)) couples = true) →
      generateValidPairingsLoop participants couples draws fuel attempt =
        .error .generationFailed := by
  intro fuel
  induction fuel with
  | zero => intro attempt _; rfl
  | succ n ih =>
    intro attempt hall
    unfold generateValidPairingsLoop
    rw [generate_pairings_ok participants (draws attempt) h2]
    simp only [hall attempt (Nat.le_refl _) (by omega), if_true]
    exact ih (attempt + 1) fun k hk1 hk2 => hall k (by omega) (by omega)

/-- If attempt `attempt + i` draws the first non-violating candidate, the
retry loop returns it with the 1-based attempt count. -/
theorem generateValidPairingsLoop_ok (participants : List String)
    (couples : List (String × String)) (draws : Nat → Nat)
    (h2 : 2 ≤ participants.length) :
    ∀ fuel attempt i, i < fuel →
      violates_couples_constraint (cyclicPairings participants (draws (attempt + i))) couples
        = false →
      (∀ j, j < i →
        violates_couples_constraint (cyclicPairings participants (draws (attempt + j))) couples
          = true) →
      generateValidPairingsLoop participants couples draws fuel attempt =
        .ok (cyclicPairings participants (draws (attempt + i)), attempt + i + 1) := by
  intro fuel
  induction fuel with
  | zero => intro attempt i hi; omega
  | succ n ih =>
    intro attempt i hi hok hbefore
    unfold generateValidPairingsLoop
    rw [generate_pairings_ok participants (draws attempt) h2]
    cases i with
    | zero =>
      simp only [Nat.add_zero] at hok ⊢
      simp [hok]
    | succ m =>
      have h0 := hbefore 0 (Nat.succ_pos m)
      simp only [Nat.add_zero] at h0
      simp only [h0, if_true]
      have := ih (attempt + 1) m (by omega)
        (by rw [show attempt + 1 + m = attempt + (m + 1) by omega]; exact hok)
        (fun j hj => by
          rw [show attempt + 1 + j = attempt + (j + 1) by omega]
          exact hbefore (j + 1) (by omega))
      rw [this]
      simp only [show attempt + 1 + m = attempt + (m + 1) by omega]

/-- C5: with at least two participants, `generate_valid_pairings` fails with
`PairingGenerationError` when every one of the `max_retries` drawn candidates
violates the couples constraint, and returns the first non-violating drawn
candidate together with its 1-based attempt count otherwise. -/
theorem generate_valid_pairings_first_valid_or_error (participants : List String)
    (couples : List (String × String)) (max_retries : Int) (draws : Nat → Nat)
    (h2 : 2 ≤ participants.length) :
    ((∀ k, k < max_retries.toNat →
        violates_couples_constraint (cyclicPairings participants (draws k)) couples = true) →
      generate_valid_pairings participants couples max_retries draws =
        .error .generationFailed) ∧
    (∀ i, i < max_retries.toNat →
      violates_couples_constraint (cyclicPairings participants (draws i)) couples = false →
      (∀ j, j < i →
        violates_couples_constraint (cyclicPairings participants (draws j)) couples = true) →
      generate_valid_pairings participants couples max_retries draws =
        .ok (cyclicPairings participants (draws i), i + 1)) := by
  constructor
  · intro hall
    exact generateValidPairingsLoop_error participants couples draws h2 max_retries.toNat 0
      fun k hk1 hk2 => hall k (by omega)
  · intro i hi hok hbefore
    have := generateValidPairingsLoop_ok participants couples draws h2 max_retries.toNat 0 i hi
      (by simpa using hok) (fun j hj => by simpa using hbefore j hj)
    simpa using this

/-- Witness for C5: participants `[Alice, Bob]` with the couple
`(Alice, Bob)` excluded; the only drawable displacement is 1, every candidate
violates, so the budget of 3 attempts is exhausted and the call fails. -/
theorem generate_valid_pairings_exhausts_witness :
    generate_valid_pairings ["Alice", "Bob"] [("Alice", "Bob")] 3 (fun _ => 1) =
      .error .generationFailed :=
  (generate_valid_pairings_first_valid_or_error ["Alice", "Bob"] [("Alice", "Bob")] 3
    (fun _ => 1) (by decide)).1 (fun k _ => by decide)

/-- C10: a retry budget of zero or less makes `generate_valid_pairings` fail
immediately — the result is the `PairingGenerationError` and is the same for
every draw sequence, so no candidate is drawn or checked. -/
theorem generate_valid_pairings_nonpositive_retries (participants : List String)
    (couples : List (String × String)) (max_retries : Int)
    (draws draws2 : Nat → Nat) (hm : max_retries ≤ 0) :
    generate_valid_pairings participants couples max_retries draws =
      .error .generationFailed ∧
    generate_valid_pairings participants couples max_retries draws =
      generate_valid_pairings participants couples max_retries draws2 := by
  unfold generate_valid_pairings
  rw [Int.toNat_of_nonpos hm]
  exact ⟨rfl, rfl⟩

/-- Witness for C10: three participants with no couples constraint, so a
valid assignment exists, yet a budget of -2 fails at once. -/
theorem generate_valid_pairings_nonpositive_retries_witness :
    generate_valid_pairings ["A", "B", "C"] [] (-2) (fun _ => 1) =
      .error .generationFailed ∧
    generate_valid_pairings ["A", "B", "C"] [] (-2) (fun _ => 1) =
      generate_valid_pairings ["A", "B", "C"] [] (-2) (fun _ => 2) :=
  generate_valid_pairings_nonpositive_retries ["A", "B", "C"] [] (-2)
    (fun _ => 1) (fun _ => 2) (by decide)

/-- C1: at the failing input `participants = [A, B, C, D]` with the drawable
displacement 2 (`randbelow(3) + 1` can be 2), the output of
`generate_pairings` is not a single 4-cycle: each pairing sends index `i` to
index `nextIdx 2 4 i`, the receiver chain from A returns to A after 2 of 4
steps, and it only ever visits indices 0 and 2 (A and C) — B and D are never
reached. -/
theorem generate_pairings_not_single_cycle :
    generate_pairings ["A", "B", "C", "D"] 2 =
      .ok [("A", "C"), ("B", "D"), ("C", "A"), ("D", "B")] ∧
    (∀ i < 4, (cyclicPairings ["A", "B", "C", "D"] 2).getD i ("", "") =
      (["A", "B", "C", "D"].getD i "", ["A", "B", "C", "D"].getD (nextIdx 2 4 i) "")) ∧
    chainFrom 2 4 0 1 = 2 ∧
    chainFrom 2 4 0 2 = 0 ∧
    (∀ k, chainFrom 2 4 0 k = 0 ∨ chainFrom 2 4 0 k = 2) := by
  refine ⟨rfl, by decide, by decide, by decide, ?_⟩
  intro k
  induction k with
  | zero => exact Or.inl rfl
  | succ m ih =>
    rcases ih with h | h
    · right
      show nextIdx 2 4 (chainFrom 2 4 0 m) = 2
      rw [h]
      decide
    · left
      show nextIdx 2 4 (chainFrom 2 4 0 m) = 0
      rw [h]
      decide

/-! ### Base64 lemmas -/

/-- Induction on byte lists in the three-byte groups of base64. -/
theorem chunk3Induction (P : List Nat → Prop) (h0 : P []) (h1 : ∀ a, P [a])
    (h2 : ∀ a b, P [a, b]) (h3 : ∀ a b c rest, P rest → P (a :: b :: c :: rest)) :
    ∀ l, P l
  | [] => h0
  | [a] => h1 a
  | [a, b] => h2 a b
  | a :: b :: c :: rest => h3 a b c rest (chunk3Induction P h0 h1 h2 h3 rest)

/-- An alphabet lookup is an alphabet character or the fallback. -/
theorem getD_mem_or (t : List Char) (k : Nat) : t.getD k '?' ∈ t ∨ t.getD k '?' = '?' := by
  rcases Nat.lt_or_ge k t.length with h | h
  · left
    rw [List.getD_eq_getElem?_getD, List.getElem?_eq_getElem h, Option.getD_some]
    exact List.getElem_mem h
  · right
    rw [List.getD_eq_getElem?_getD, List.getElem?_eq_none h, Option.getD_none]

/-- An in-range alphabet lookup is an alphabet character. -/
theorem getD_mem_of_lt (t : List Char) (k : Nat) (h : k < t.length) :
    t.getD k '?' ∈ t := by
  rw [List.getD_eq_getElem?_getD, List.getElem?_eq_getElem h, Option.getD_some]
  exact List.getElem_mem h

/-- Lookups never produce a character outside the alphabet and the fallback,
in particular never `=`. -/
theorem getD_ne (t : List Char) (e : Char) (he : e ∉ t) (hq : e ≠ '?') (k : Nat) :
    t.getD k '?' ≠ e := by
  rcases getD_mem_or t k with h | h
  · intro heq
    exact he (heq ▸ h)
  · rw [h]
    exact fun heq => hq heq.symm

/-- Shape of a base64 encoding: alphabet characters followed by the final
padding run of `=`, with the group arithmetic of its length. -/
theorem b64EncodeWith_structure (t : List Char) (ht : ('=' : Char) ∉ t) :
    ∀ bs : List Nat, ∃ s : List Char,
      b64EncodeWith t bs = s ++ List.replicate ((3 - bs.length % 3) % 3) '=' ∧
      (∀ x ∈ s, x ≠ '=') ∧
      s.length + (3 - bs.length % 3) % 3 = 4 * ((bs.length + 2) / 3) := by
  have hne : ∀ k, t.getD k '?' ≠ '=' := fun k => getD_ne t '=' ht (by decide) k
  intro bs
  induction bs using chunk3Induction with
  | h0 => exact ⟨[], by simp [b64EncodeWith], by simp, by simp⟩
  | h1 a =>
    refine ⟨[t.getD (a / 4) '?', t.getD ((a % 4) * 16) '?'], rfl, ?_, ?_⟩
    · intro x hx
      simp only [List.mem_cons, List.not_mem_nil, or_false] at hx
      rcases hx with h | h
      · exact h ▸ hne _
      · exact h ▸ hne _
    · simp only [List.length_cons, List.length_nil]
  | h2 a b =>
    refine ⟨[t.getD (a / 4) '?', t.getD ((a % 4) * 16 + b / 16) '?',
      t.getD ((b % 16) * 4) '?'], rfl, ?_, ?_⟩
    · intro x hx
      simp only [List.mem_cons, List.not_mem_nil, or_false] at hx
      rcases hx with h | h | h
      · exact h ▸ hne _
      · exact h ▸ hne _
      · exact h ▸ hne _
    · simp only [List.length_cons, List.length_nil]
  | h3 a b c rest ih =>
    obtain ⟨s, hs, hchars, hlen⟩ := ih
    refine ⟨t.getD (a / 4) '?' :: t.getD ((a % 4) * 16 + b / 16) '?' ::
      t.getD ((b % 16) * 4 + c / 64) '?' :: t.getD (c % 64) '?' :: s, ?_, ?_, ?_⟩
    · have hcount : (3 - (a :: b :: c :: rest).length % 3) % 3 =
          (3 - rest.length % 3) % 3 := by
        simp only [List.length_cons]
        omega
      rw [hcount]
      simp only [b64EncodeWith, hs, List.cons_append]
    · intro x hx
      rcases List.mem_cons.mp hx with h | hx
      · exact h ▸ hne _
      rcases List.mem_cons.mp hx with h | hx
      · exact h ▸ hne _
      rcases List.mem_cons.mp hx with h | hx
      · exact h ▸ hne _
      rcases List.mem_cons.mp hx with h | hx
      · exact h ▸ hne _
      · exact hchars x hx
    · simp only [List.length_cons] at hlen ⊢
      omega

/-- `rstrip` removes exactly the trailing run of `c`. -/
theorem rstripChar_append_replicate (c : Char) (s : List Char) (j : Nat)
    (h : ∀ x ∈ s, x ≠ c) : rstripChar c (s ++ List.replicate j c) = s := by
  unfold rstripChar
  rw [List.reverse_append, List.reverse_replicate]
  rw [List.dropWhile_append_of_pos
    (by intro a ha; rw [List.eq_of_mem_replicate ha]; simp)]
  have hdrop : s.reverse.dropWhile (fun x => x == c) = s.reverse := by
    cases hsr : s.reverse with
    | nil => rfl
    | cons a tl =>
      have ha : a ∈ s := by
        rw [← List.mem_reverse, hsr]
        exact List.mem_cons_self a tl
      rw [List.dropWhile_cons_of_neg (by simpa using h a ha)]
  rw [hdrop, List.reverse_reverse]

/-- Re-padding the stripped encoding restores it. -/
theorem addPad_rstrip_encode (t : List Char) (ht : ('=' : Char) ∉ t) (bs : List Nat) :
    addB64Padding (rstripChar '=' (b64EncodeWith t bs)) = b64EncodeWith t bs := by
  obtain ⟨s, hs, hchars, hlen⟩ := b64EncodeWith_structure t ht bs
  rw [hs, rstripChar_append_replicate '=' s _ hchars]
  unfold addB64Padding
  have hj : (4 - s.length % 4) % 4 = (3 - bs.length % 3) % 3 := by omega
  rw [hj]

/-- The length of a base64 encoding, padding included. -/
theorem b64EncodeWith_length (t : List Char) :
    ∀ bs : List Nat, (b64EncodeWith t bs).length = 4 * ((bs.length + 2) / 3) := by
  intro bs
  induction bs using chunk3Induction with
  | h0 => simp [b64EncodeWith]
  | h1 a => simp [b64EncodeWith]
  | h2 a b => simp [b64EncodeWith]
  | h3 a b c rest ih =>
    simp only [b64EncodeWith, List.length_cons, ih]
    omega

/-- The length of a stripped base64 encoding. -/
theorem rstrip_b64_length (t : List Char) (ht : ('=' : Char) ∉ t) (bs : List Nat) :
    (rstripChar '=' (b64EncodeWith t bs)).length =
      4 * ((bs.length + 2) / 3) - (3 - bs.length % 3) % 3 := by
  obtain ⟨s, hs, hchars, hlen⟩ := b64EncodeWith_structure t ht bs
  rw [hs, rstripChar_append_replicate '=' s _ hchars]
  omega

/-- With in-range bytes, every character of a base64 encoding is an alphabet
character or `=`. -/
theorem b64EncodeWith_mem (t : List Char) (ht64 : t.length = 64) :
    ∀ bs : List Nat, (∀ b ∈ bs, b < 256) →
      ∀ x ∈ b64EncodeWith t bs, x ∈ t ∨ x = '=' := by
  intro bs
  induction bs using chunk3Induction with
  | h0 =>
    intro _ x hx
    cases hx
  | h1 a =>
    intro hb x hx
    have ha : a < 256 := hb a (by simp)
    simp only [b64EncodeWith, List.mem_cons, List.not_mem_nil, or_false] at hx
    rcases hx with h | h | h | h
    · exact Or.inl (h ▸ getD_mem_of_lt t _ (by omega))
    · exact Or.inl (h ▸ getD_mem_of_lt t _ (by omega))
    · exact Or.inr h
    · exact Or.inr h
  | h2 a b =>
    intro hb x hx
    have ha : a < 256 := hb a (by simp)
    have hb2 : b < 256 := hb b (by simp)
    simp only [b64EncodeWith, List.mem_cons, List.not_mem_nil, or_false] at hx
    rcases hx with h | h | h | h
    · exact Or.inl (h ▸ getD_mem_of_lt t _ (by omega))
    · exact Or.inl (h ▸ getD_mem_of_lt t _ (by omega))
    · exact Or.inl (h ▸ getD_mem_of_lt t _ (by omega))
    · exact Or.inr h
  | h3 a b c rest ih =>
    intro hb x hx
    have ha : a < 256 := hb a (by simp)
    have hb2 : b < 256 := hb b (by simp)
    have hc : c < 256 := hb c (by simp)
    simp only [b64EncodeWith, List.mem_cons] at hx
    rcases hx with h | h | h | h | h
    · exact Or.inl (h ▸ getD_mem_of_lt t _ (by omega))
    · exact Or.inl (h ▸ getD_mem_of_lt t _ (by omega))
    · exact Or.inl (h ▸ getD_mem_of_lt t _ (by omega))
    · exact Or.inl (h ▸ getD_mem_of_lt t _ (by omega))
    · exact ih (fun y hy => hb y (by simp [hy])) x h

/-- Every character of a base64 encoding is an alphabet character, `=`, or
the (unreachable) fallback `?`. -/
theorem b64EncodeWith_mem_loose (t : List Char) :
    ∀ bs : List Nat, ∀ x ∈ b64EncodeWith t bs, x ∈ t ∨ x = '=' ∨ x = '?' := by
  intro bs
  induction bs using chunk3Induction with
  | h0 =>
    intro x hx
    cases hx
  | h1 a =>
    intro x hx
    simp only [b64EncodeWith, List.mem_cons, List.not_mem_nil, or_false] at hx
    rcases hx with h | h | h | h
    · rcases getD_mem_or t (a / 4) with hm | hm
      · exact Or.inl (h ▸ hm)
      · exact Or.inr (Or.inr (h ▸ hm))
    · rcases getD_mem_or t ((a % 4) * 16) with hm | hm
      · exact Or.inl (h ▸ hm)
      · exact Or.inr (Or.inr (h ▸ hm))
    · exact Or.inr (Or.inl h)
    · exact Or.inr (Or.inl h)
  | h2 a b =>
    intro x hx
    simp only [b64EncodeWith, List.mem_cons, List.not_mem_nil, or_false] at hx
    rcases hx with h | h | h | h
    · rcases getD_mem_or t (a / 4) with hm | hm
      · exact Or.inl (h ▸ hm)
      · exact Or.inr (Or.inr (h ▸ hm))
    · rcases getD_mem_or t ((a % 4) * 16 + b / 16) with hm | hm
      · exact Or.inl (h ▸ hm)
      · exact Or.inr (Or.inr (h ▸ hm))
    · rcases getD_mem_or t ((b % 16) * 4) with hm | hm
      · exact Or.inl (h ▸ hm)
      · exact Or.inr (Or.inr (h ▸ hm))
    · exact Or.inr (Or.inl h)
  | h3 a b c rest ih =>
    intro x hx
    simp only [b64EncodeWith, List.mem_cons] at hx
    rcases hx with h | h | h | h | h
    · rcases getD_mem_or t (a / 4) with hm | hm
      · exact Or.inl (h ▸ hm)
      · exact Or.inr (Or.inr (h ▸ hm))
    · rcases getD_mem_or t ((a % 4) * 16 + b / 16) with hm | hm
      · exact Or.inl (h ▸ hm)
      · exact Or.inr (Or.inr (h ▸ hm))
    · rcases getD_mem_or t ((b % 16) * 4 + c / 64) with hm | hm
      · exact Or.inl (h ▸ hm)
      · exact Or.inr (Or.inr (h ▸ hm))
    · rcases getD_mem_or t (c % 64) with hm | hm
      · exact Or.inl (h ▸ hm)
      · exact Or.inr (Or.inr (h ▸ hm))
    · exact ih x h

/-- The standard table decodes its own entries. -/
theorem b64Table_dec : ∀ k, k < 64 → b64DecChar b64Table (b64Table.getD k '?') = some k := by
  decide

/-- The URL-safe table decodes its own entries. -/
theorem b64UrlTable_dec : ∀ k, k < 64 →
    b64DecChar b64UrlTable (b64UrlTable.getD k '?') = some k := by
  decide

/-- No entry of the standard table is `=`. -/
theorem b64Table_ne_eq : ∀ k, k < 64 → b64Table.getD k '?' ≠ '=' := by decide

/-- No entry of the URL-safe table is `=`. -/
theorem b64UrlTable_ne_eq : ∀ k, k < 64 → b64UrlTable.getD k '?' ≠ '=' := by decide

/-- `=` is not a standard alphabet character. -/
theorem eq_not_mem_b64Table : ('=' : Char) ∉ b64Table := by decide

/-- `=` is not a URL-safe alphabet character. -/
theorem eq_not_mem_b64UrlTable : ('=' : Char) ∉ b64UrlTable := by decide

/-- Decoding a full group of four alphabet characters. -/
theorem b64DecodeWith_cons4 (t : List Char) (c1 c2 c3 c4 : Char) (rest : List Char)
    (s1 s2 s3 s4 : Nat)
    (h1 : b64DecChar t c1 = some s1) (h2 : b64DecChar t c2 = some s2)
    (h3 : b64DecChar t c3 = some s3) (h4 : b64DecChar t c4 = some s4)
    (hc3 : c3 ≠ '=') (hc4 : c4 ≠ '=') :
    b64DecodeWith t (c1 :: c2 :: c3 :: c4 :: rest) =
      (b64DecodeWith t rest).map fun bs =>
        (s1 * 4 + s2 / 16) :: ((s2 % 16) * 16 + s3 / 4) :: ((s3 % 4) * 64 + s4) :: bs := by
  simp only [b64DecodeWith, h1, h2, h3, h4]
  rw [if_neg hc3, if_neg hc4]

/-- Decoding a final group padded with one `=`. -/
theorem b64DecodeWith_tail2 (t : List Char) (c1 c2 c3 : Char) (s1 s2 s3 : Nat)
    (h1 : b64DecChar t c1 = some s1) (h2 : b64DecChar t c2 = some s2)
    (h3 : b64DecChar t c3 = some s3) (hc3 : c3 ≠ '=') :
    b64DecodeWith t [c1, c2, c3, '='] =
      some [s1 * 4 + s2 / 16, (s2 % 16) * 16 + s3 / 4] := by
  simp only [b64DecodeWith, h1, h2, h3]
  rw [if_neg hc3]
  simp

/-- Decoding a final group padded with two `=`. -/
theorem b64DecodeWith_tail1 (t : List Char) (c1 c2 : Char) (s1 s2 : Nat)
    (h1 : b64DecChar t c1 = some s1) (h2 : b64DecChar t c2 = some s2) :
    b64DecodeWith t [c1, c2, '=', '='] = some [s1 * 4 + s2 / 16] := by
  simp only [b64DecodeWith, h1, h2]
  simp

/-- Base64 decoding inverts base64 encoding on byte lists, for any alphabet
that decodes its own entries and contains no `=`. -/
theorem b64DecodeWith_encodeWith (t : List Char)
    (hdec : ∀ k, k < 64 → b64DecChar t (t.getD k '?') = some k)
    (hne : ∀ k, k < 64 → t.getD k '?' ≠ '=') :
    ∀ bs : List Nat, (∀ b ∈ bs, b < 256) →
      b64DecodeWith t (b64EncodeWith t bs) = some bs := by
  intro bs
  induction bs using chunk3Induction with
  | h0 => intro _; rfl
  | h1 a =>
    intro hb
    have ha : a < 256 := hb a (by simp)
    have henc : b64EncodeWith t [a] =
        [t.getD (a / 4) '?', t.getD (a % 4 * 16) '?', '=', '='] := by
      simp only [b64EncodeWith]
    rw [henc, b64DecodeWith_tail1 t _ _ _ _ (hdec _ (by omega)) (hdec _ (by omega))]
    have e1 : a / 4 * 4 + a % 4 * 16 / 16 = a := by omega
    rw [e1]
  | h2 a b =>
    intro hb
    have ha : a < 256 := hb a (by simp)
    have hbb : b < 256 := hb b (by simp)
    have henc : b64EncodeWith t [a, b] =
        [t.getD (a / 4) '?', t.getD (a % 4 * 16 + b / 16) '?',
          t.getD (b % 16 * 4) '?', '='] := by
      simp only [b64EncodeWith]
    rw [henc, b64DecodeWith_tail2 t _ _ _ _ _ _ (hdec _ (by omega))
      (hdec _ (by omega)) (hdec _ (by omega)) (hne _ (by omega))]
    have e1 : a / 4 * 4 + (a % 4 * 16 + b / 16) / 16 = a := by omega
    have e2 : (a % 4 * 16 + b / 16) % 16 * 16 + b % 16 * 4 / 4 = b := by omega
    rw [e1, e2]
  | h3 a b c rest ih =>
    intro hb
    have ha : a < 256 := hb a (by simp)
    have hbb : b < 256 := hb b (by simp)
    have hc : c < 256 := hb c (by simp)
    have henc : b64EncodeWith t (a :: b :: c :: rest) =
        t.getD (a / 4) '?' :: t.getD (a % 4 * 16 + b / 16) '?' ::
          t.getD (b % 16 * 4 + c / 64) '?' :: t.getD (c % 64) '?' ::
            b64EncodeWith t rest := by
      simp only [b64EncodeWith]
    rw [henc, b64DecodeWith_cons4 t _ _ _ _ _ _ _ _ _
      (hdec _ (by omega)) (hdec _ (by omega)) (hdec _ (by omega)) (hdec _ (by omega))
      (hne _ (by omega)) (hne _ (by omega))]
    rw [ih fun y hy => hb y (by simp [hy])]
    simp only [Option.map_some']
    have e1 : a / 4 * 4 + (a % 4 * 16 + b / 16) / 16 = a := by omega
    have e2 : (a % 4 * 16 + b / 16) % 16 * 16 + (b % 16 * 4 + c / 64) / 4 = b := by omega
    have e3 : (b % 16 * 4 + c / 64) % 4 * 64 + c % 64 = c := by omega
    rw [e1, e2, e3]

/-! ### UTF-8 and XOR lemmas -/

/-- A character's code point is a Unicode scalar value. -/
theorem char_toNat_valid (c : Char) :
    c.toNat < 55296 ∨ (57343 < c.toNat ∧ c.toNat < 1114112) := c.valid

/-- Every byte of a one-character UTF-8 encoding is below 256. -/
theorem utf8EncodeChar_lt (c : Char) : ∀ b ∈ utf8EncodeChar c, b < 256 := by
  have hv := char_toNat_valid c
  unfold utf8EncodeChar
  split
  · intro b hb
    simp only [List.mem_cons, List.not_mem_nil, or_false] at hb
    omega
  split
  · intro b hb
    simp only [List.mem_cons, List.not_mem_nil, or_false] at hb
    omega
  split
  · intro b hb
    simp only [List.mem_cons, List.not_mem_nil, or_false] at hb
    omega
  · intro b hb
    simp only [List.mem_cons, List.not_mem_nil, or_false] at hb
    omega

/-- Every byte of a UTF-8 encoding is below 256. -/
theorem utf8Encode_lt : ∀ s : List Char, ∀ b ∈ utf8Encode s, b < 256 := by
  intro s
  induction s with
  | nil =>
    intro b hb
    cases hb
  | cons c rest ih =>
    intro b hb
    simp only [utf8Encode] at hb
    rcases List.mem_append.mp hb with h | h
    · exact utf8EncodeChar_lt c b h
    · exact ih b h

/-- Decoding a list headed by an ASCII byte. -/
theorem utf8Decode_ascii (b : Nat) (h : b < 128) (bs : List Nat) :
    utf8Decode (b :: bs) = (utf8Decode bs).map fun cs => Char.ofNat b :: cs := by
  match bs with
  | [] => simp only [utf8Decode]; rw [if_pos h]
  | [x] => simp only [utf8Decode]; rw [if_pos h]
  | [x, y] => simp only [utf8Decode]; rw [if_pos h]
  | x :: y :: z :: w => simp only [utf8Decode]; rw [if_pos h]

/-- Decoding a list headed by a valid two-byte sequence. -/
theorem utf8Decode_two (b b2 : Nat) (h1 : ¬ b < 128) (h2 : twoByteOk b b2 = true)
    (bs : List Nat) :
    utf8Decode (b :: b2 :: bs) =
      (utf8Decode bs).map fun cs => Char.ofNat (twoByteVal b b2) :: cs := by
  match bs with
  | [] => simp only [utf8Decode]; rw [if_neg h1, if_pos h2]
  | [x] => simp only [utf8Decode]; rw [if_neg h1, if_pos h2]
  | x :: y :: w => simp only [utf8Decode]; rw [if_neg h1, if_pos h2]

/-- Decoding a list headed by a valid three-byte sequence. -/
theorem utf8Decode_three (b b2 b3 : Nat) (h1 : ¬ b < 128)
    (h2 : twoByteOk b b2 = false) (h3 : threeByteOk b b2 b3 = true)
    (bs : List Nat) :
    utf8Decode (b :: b2 :: b3 :: bs) =
      (utf8Decode bs).map fun cs => Char.ofNat (threeByteVal b b2 b3) :: cs := by
  match bs with
  | [] => simp only [utf8Decode]; rw [if_neg h1, h2, if_neg (by simp), if_pos h3]
  | x :: w => simp only [utf8Decode]; rw [if_neg h1, h2, if_neg (by simp), if_pos h3]

/-- Decoding a list headed by a valid four-byte sequence. -/
theorem utf8Decode_four (b b2 b3 b4 : Nat) (h1 : ¬ b < 128)
    (h2 : twoByteOk b b2 = false) (h3 : threeByteOk b b2 b3 = false)
    (h4 : fourByteOk b b2 b3 b4 = true) (bs : List Nat) :
    utf8Decode (b :: b2 :: b3 :: b4 :: bs) =
      (utf8Decode bs).map fun cs => Char.ofNat (fourByteVal b b2 b3 b4) :: cs := by
  simp only [utf8Decode]
  rw [if_neg h1, h2, if_neg (by simp), h3, if_neg (by simp), if_pos h4]

/-- Decoding after encoding one character peels that character off. -/
theorem utf8Decode_encodeChar (c : Char) (bs : List Nat) :
    utf8Decode (utf8EncodeChar c ++ bs) = (utf8Decode bs).map fun cs => c :: cs := by
  have hv := char_toNat_valid c
  have hofn : Char.ofNat c.toNat = c := Char.ofNat_toNat c
  by_cases h1 : c.toNat < 128
  · have henc : utf8EncodeChar c = [c.toNat] := by
      unfold utf8EncodeChar
      rw [if_pos h1]
    rw [henc]
    show utf8Decode (c.toNat :: bs) = _
    rw [utf8Decode_ascii c.toNat h1 bs, hofn]
  by_cases h2 : c.toNat < 2048
  · have henc : utf8EncodeChar c = [192 + c.toNat / 64, 128 + c.toNat % 64] := by
      unfold utf8EncodeChar
      rw [if_neg h1, if_pos h2]
    rw [henc]
    show utf8Decode ((192 + c.toNat / 64) :: (128 + c.toNat % 64) :: bs) = _
    rw [utf8Decode_two _ _ (by omega) (by simp [twoByteOk, isCont]; try omega) bs]
    have hval : twoByteVal (192 + c.toNat / 64) (128 + c.toNat % 64) = c.toNat := by
      simp only [twoByteVal]
      omega
    rw [hval, hofn]
  by_cases h3 : c.toNat < 65536
  · have henc : utf8EncodeChar c =
        [224 + c.toNat / 4096, 128 + c.toNat / 64 % 64, 128 + c.toNat % 64] := by
      unfold utf8EncodeChar
      rw [if_neg h1, if_neg h2, if_pos h3]
    rw [henc]
    show utf8Decode ((224 + c.toNat / 4096) :: (128 + c.toNat / 64 % 64) ::
      (128 + c.toNat % 64) :: bs) = _
    have hval : threeByteVal (224 + c.toNat / 4096) (128 + c.toNat / 64 % 64)
        (128 + c.toNat % 64) = c.toNat := by
      simp only [threeByteVal]
      omega
    rw [utf8Decode_three _ _ _ (by omega) (by simp [twoByteOk]; try omega)
      (by simp [threeByteOk, isCont, hval]; try omega) bs]
    rw [hval, hofn]
  · have henc : utf8EncodeChar c =
        [240 + c.toNat / 262144, 128 + c.toNat / 4096 % 64, 128 + c.toNat / 64 % 64,
          128 + c.toNat % 64] := by
      unfold utf8EncodeChar
      rw [if_neg h1, if_neg h2, if_neg h3]
    rw [henc]
    show utf8Decode ((240 + c.toNat / 262144) :: (128 + c.toNat / 4096 % 64) ::
      (128 + c.toNat / 64 % 64) :: (128 + c.toNat % 64) :: bs) = _
    have hval : fourByteVal (240 + c.toNat / 262144) (128 + c.toNat / 4096 % 64)
        (128 + c.toNat / 64 % 64) (128 + c.toNat % 64) = c.toNat := by
      simp only [fourByteVal]
      omega
    rw [utf8Decode_four _ _ _ _ (by omega) (by simp [twoByteOk]; try omega)
      (by simp [threeByteOk]; try omega) (by simp [fourByteOk, isCont, hval]; try omega) bs]
    rw [hval, hofn]

/-- UTF-8 decoding inverts UTF-8 encoding. -/
theorem utf8Decode_encode (s : List Char) : utf8Decode (utf8Encode s) = some s := by
  induction s with
  | nil => rfl
  | cons c rest ih =>
    show utf8Decode (utf8EncodeChar c ++ utf8Encode rest) = _
    rw [utf8Decode_encodeChar, ih]
    rfl

/-- The length of a XOR of byte lists. -/
theorem xorBytes_length (xs ys : List Nat) :
    (xorBytes xs ys).length = min xs.length ys.length := by
  simp [xorBytes]

/-- XOR keeps bytes below 256. -/
theorem xorBytes_lt (xs ys : List Nat) (hx : ∀ b ∈ xs, b < 256)
    (hy : ∀ b ∈ ys, b < 256) : ∀ b ∈ xorBytes xs ys, b < 256 := by
  intro b hb
  simp only [xorBytes, List.mem_map] at hb
  obtain ⟨⟨x, y⟩, hxy, rfl⟩ := hb
  obtain ⟨hxm, hym⟩ := List.of_mem_zip hxy
  exact Nat.xor_lt_two_pow (n := 8) (hx x hxm) (hy y hym)

/-- XOR with the same pad twice gives the input back. -/
theorem xorBytes_cancel (xs ys : List Nat) (h : xs.length = ys.length) :
    xorBytes (xorBytes xs ys) ys = xs := by
  induction xs generalizing ys with
  | nil => rfl
  | cons x xs ih =>
    cases ys with
    | nil => simp at h
    | cons y ys' =>
      show ((x ^^^ y) ^^^ y) :: xorBytes (xorBytes xs ys') ys' = x :: xs
      rw [Nat.xor_cancel_right]
      rw [ih ys' (by simpa using h)]

/-! ### Whitespace, ASCII and payload lemmas -/

/-- `dropWhile` eats a run of an accepted character. -/
theorem dropWhile_replicate_true (p : Char → Bool) (c : Char) (hc : p c = true)
    (n : Nat) : (List.replicate n c).dropWhile p = [] := by
  induction n with
  | zero => rfl
  | succ m ih => rw [List.replicate_succ, List.dropWhile_cons_of_pos hc, ih]

/-- Stripping drops a leading whitespace character. -/
theorem pyStrip_cons_space (a : Char) (l : List Char) (ha : isPySpace a = true) :
    pyStrip (a :: l) = pyStrip l := by
  unfold pyStrip
  rw [List.dropWhile_cons_of_pos ha]

/-- Stripping a string with a non-whitespace head only strips the right end. -/
theorem pyStrip_cons_nonspace (a : Char) (l : List Char) (ha : isPySpace a = false) :
    pyStrip (a :: l) = ((a :: l).reverse.dropWhile isPySpace).reverse := by
  unfold pyStrip
  rw [List.dropWhile_cons_of_neg (by simp [ha])]

/-- Appended trailing spaces do not change the stripped string. -/
theorem pyStrip_append_spaces (s : List Char) (n : Nat) :
    pyStrip (s ++ List.replicate n ' ') = pyStrip s := by
  induction s with
  | nil =>
    rw [List.nil_append]
    unfold pyStrip
    rw [dropWhile_replicate_true isPySpace ' ' (by decide) n]
    rfl
  | cons a s' ih =>
    rw [List.cons_append]
    cases ha : isPySpace a with
    | true =>
      rw [pyStrip_cons_space a _ ha, pyStrip_cons_space a s' ha]
      exact ih
    | false =>
      rw [pyStrip_cons_nonspace a _ ha, pyStrip_cons_nonspace a s' ha]
      rw [List.reverse_cons, List.reverse_cons, List.reverse_append,
        List.reverse_replicate, List.append_assoc]
      rw [List.dropWhile_append_of_pos
        (by intro x hx; rw [List.eq_of_mem_replicate hx]; decide)]

/-- Padding a message and stripping gives the stripped message back. -/
theorem pyStrip_ljust (s : List Char) (n : Nat) : pyStrip (ljust s n) = pyStrip s := by
  unfold ljust
  exact pyStrip_append_spaces s _

/-- An ASCII character encodes to its own single byte. -/
theorem utf8EncodeChar_ascii (c : Char) (h : c.toNat < 128) :
    utf8EncodeChar c = [c.toNat] := by
  unfold utf8EncodeChar
  rw [if_pos h]

/-- ASCII text has as many UTF-8 bytes as characters. -/
theorem utf8Encode_length_ascii (s : List Char) (h : ∀ c ∈ s, c.toNat < 128) :
    (utf8Encode s).length = s.length := by
  induction s with
  | nil => rfl
  | cons c rest ih =>
    simp only [utf8Encode, List.length_append, List.length_cons]
    rw [utf8EncodeChar_ascii c (h c (by simp)),
      ih fun x hx => h x (by simp [hx])]
    simp [Nat.add_comm]

/-- `dropLit` removes exactly the literal prefix. -/
theorem dropLit_append (l r : List Char) : dropLit l (l ++ r) = some r := by
  induction l with
  | nil => rfl
  | cons c cs ih =>
    show dropLit (c :: cs) (c :: (cs ++ r)) = some r
    simp only [dropLit, if_pos rfl]
    exact ih

/-- `takeWhile` through an accepted segment up to a rejected character. -/
theorem takeWhile_seg (p : Char → Bool) (l : List Char) (d : Char) (r : List Char)
    (hl : ∀ x ∈ l, p x = true) (hd : p d = false) :
    (l ++ d :: r).takeWhile p = l := by
  rw [List.takeWhile_append_of_pos hl, List.takeWhile_cons_of_neg (by simp [hd])]
  simp

/-- `dropWhile` through an accepted segment up to a rejected character. -/
theorem dropWhile_seg (p : Char → Bool) (l : List Char) (d : Char) (r : List Char)
    (hl : ∀ x ∈ l, p x = true) (hd : p d = false) :
    (l ++ d :: r).dropWhile p = d :: r := by
  rw [List.dropWhile_append_of_pos hl, List.dropWhile_cons_of_neg (by simp [hd])]

/-- Parsing the serialized payload recovers version 1, the key text and the
ciphertext text, whenever the two texts contain no quote. -/
theorem parsePayload_jsonPayload (ks cs : List Char)
    (hk : ∀ x ∈ ks, x ≠ '"') (hc : ∀ x ∈ cs, x ≠ '"') :
    parsePayload (jsonPayload ks cs) = some (1, ks, cs) := by
  have hk' : ∀ x ∈ ks, (x != '"') = true := fun x hx => by simpa using hk x hx
  have hc' : ∀ x ∈ cs, (x != '"') = true := fun x hx => by simpa using hc x hx
  have e1 : ("\x7b\"v\":1,\"k\":\"").toList =
      ("\x7b\"v\":").toList ++ '1' :: ((",\"k\":\"").toList) := by decide
  have e2 : ("\",\"c\":\"").toList = '"' :: ((",\"c\":\"").toList) := by decide
  have e3 : ("\"\x7d").toList = '"' :: (("\x7d").toList) := by decide
  have hshape : jsonPayload ks cs = ("\x7b\"v\":").toList ++
      ('1' :: (((",\"k\":\"").toList) ++ (ks ++ ('"' :: (((",\"c\":\"").toList) ++
        (cs ++ ('"' :: (("\x7d").toList)))))))) := by
    unfold jsonPayload
    rw [e1, e2, e3]
    simp [List.append_assoc]
  have e4 : ((",\"k\":\"").toList) = ',' :: (("\"k\":\"").toList) := by decide
  rw [hshape]
  unfold parsePayload
  rw [dropLit_append]
  simp only [Option.bind_eq_bind, Option.some_bind]
  have ht1 : List.takeWhile Char.isDigit ('1' :: (((",\"k\":\"").toList) ++
      (ks ++ ('"' :: (((",\"c\":\"").toList) ++ (cs ++ ('"' :: (("\x7d").toList)))))))) =
      ['1'] := by
    rw [List.takeWhile_cons_of_pos (by decide), e4, List.cons_append,
      List.takeWhile_cons_of_neg (by decide)]
  have hd1 : List.dropWhile Char.isDigit ('1' :: (((",\"k\":\"").toList) ++
      (ks ++ ('"' :: (((",\"c\":\"").toList) ++ (cs ++ ('"' :: (("\x7d").toList)))))))) =
      ((",\"k\":\"").toList) ++
        (ks ++ ('"' :: (((",\"c\":\"").toList) ++ (cs ++ ('"' :: (("\x7d").toList)))))) := by
    rw [List.dropWhile_cons_of_pos (by decide), e4, List.cons_append,
      List.dropWhile_cons_of_neg (by decide), ← List.cons_append, ← e4]
  rw [ht1, hd1]
  rw [dropLit_append]
  simp only [List.isEmpty_cons, Option.bind_eq_bind, Option.some_bind, Bool.false_eq_true, if_false]
  rw [takeWhile_seg _ ks '"' _ hk' (by decide), dropWhile_seg _ ks '"' _ hk' (by decide)]
  rw [← List.cons_append, ← e2, dropLit_append]
  simp only [Option.bind_eq_bind, Option.some_bind]
  rw [takeWhile_seg _ cs '"' _ hc' (by decide), dropWhile_seg _ cs '"' _ hc' (by decide)]
  rw [show ('"' :: (("\x7d").toList)) = ("\"\x7d").toList ++ ([] : List Char) from by decide]
  rw [dropLit_append]
  simp
  decide

/-! ### Token round trip -/

/-- `"` is not a standard alphabet character. -/
theorem quote_not_mem_b64Table : ('"' : Char) ∉ b64Table := by decide

/-- Standard base64 text contains no quote. -/
theorem b64encode_ne_quote (bs : List Nat) :
    ∀ x ∈ b64EncodeWith b64Table bs, x ≠ '"' := by
  intro x hx heq
  subst heq
  rcases b64EncodeWith_mem_loose b64Table bs '"' hx with h | h | h
  · exact quote_not_mem_b64Table h
  · exact absurd h (by decide)
  · exact absurd h (by decide)

/-- Decoding an encoded token yields the space-padded message stripped of
leading and trailing whitespace, for every key the code can draw. -/
theorem decode_encode_strip (message : List Char) (padding_length : Nat)
    (key : List Nat)
    (hklen : key.length = (utf8Encode (ljust message padding_length)).length)
    (hkb : ∀ b ∈ key, b < 256) :
    base64url_fragment_to_message
        (message_to_base64url_fragment message padding_length key) =
      some (pyStrip (ljust message padding_length)) := by
  have hMb : ∀ b ∈ utf8Encode (ljust message padding_length), b < 256 :=
    utf8Encode_lt _
  have hCb : ∀ b ∈ xorBytes (utf8Encode (ljust message padding_length)) key, b < 256 :=
    xorBytes_lt _ _ hMb hkb
  simp only [message_to_base64url_fragment, base64url_fragment_to_message]
  rw [addPad_rstrip_encode b64UrlTable eq_not_mem_b64UrlTable]
  rw [b64DecodeWith_encodeWith b64UrlTable b64UrlTable_dec b64UrlTable_ne_eq _
    (utf8Encode_lt _)]
  simp only [Option.bind_eq_bind, Option.some_bind]
  rw [utf8Decode_encode]
  simp only [Option.bind_eq_bind, Option.some_bind]
  rw [parsePayload_jsonPayload _ _ (b64encode_ne_quote key) (b64encode_ne_quote _)]
  simp only [Option.bind_eq_bind, Option.some_bind, if_true]
  rw [b64DecodeWith_encodeWith b64Table b64Table_dec b64Table_ne_eq key hkb]
  simp only [Option.bind_eq_bind, Option.some_bind]
  rw [b64DecodeWith_encodeWith b64Table b64Table_dec b64Table_ne_eq _ hCb]
  simp only [Option.bind_eq_bind, Option.some_bind]
  rw [xorBytes_cancel _ _ hklen.symm]
  rw [utf8Decode_encode]
  simp only [Option.bind_eq_bind, Option.some_bind]

/-! ### Token length and alphabet -/

/-- Length of the padded message when the message fits the pad. -/
theorem ljust_length_of_le (s : List Char) (n : Nat) (h : s.length ≤ n) :
    (ljust s n).length = n := by
  simp [ljust]
  omega

/-- The padded form of an ASCII message is ASCII. -/
theorem ljust_ascii (s : List Char) (n : Nat) (h : ∀ c ∈ s, c.toNat < 128) :
    ∀ c ∈ ljust s n, c.toNat < 128 := by
  intro c hc
  simp only [ljust] at hc
  rcases List.mem_append.mp hc with hm | hm
  · exact h c hm
  · rw [List.eq_of_mem_replicate hm]
    decide

/-- The serialized payload is 21 characters of scaffolding plus the two
base64 texts. -/
theorem jsonPayload_length (kb cb : List Char) :
    (jsonPayload kb cb).length = 21 + kb.length + cb.length := by
  have e1 : (("\x7b\"v\":1,\"k\":\"").toList).length = 12 := by decide
  have e2 : (("\",\"c\":\"").toList).length = 7 := by decide
  have e3 : (("\"\x7d").toList).length = 2 := by decide
  simp only [jsonPayload, List.length_append, e1, e2, e3]
  omega

/-- Standard base64 text is ASCII. -/
theorem b64encode_ascii (bs : List Nat) :
    ∀ x ∈ b64EncodeWith b64Table bs, x.toNat < 128 := by
  intro x hx
  rcases b64EncodeWith_mem_loose b64Table bs x hx with h | h | h
  · exact (by decide : ∀ y ∈ b64Table, y.toNat < 128) x h
  · rw [h]; decide
  · rw [h]; decide

/-- The serialized payload of two ASCII texts is ASCII. -/
theorem jsonPayload_ascii (kb cb : List Char) (hk : ∀ c ∈ kb, c.toNat < 128)
    (hc : ∀ c ∈ cb, c.toNat < 128) : ∀ c ∈ jsonPayload kb cb, c.toNat < 128 := by
  intro c hcm
  simp only [jsonPayload, List.append_assoc, List.mem_append] at hcm
  rcases hcm with h | h | h | h | h
  · exact (by decide : ∀ y ∈ ("\x7b\"v\":1,\"k\":\"").toList, y.toNat < 128) c h
  · exact hk c h
  · exact (by decide : ∀ y ∈ ("\",\"c\":\"").toList, y.toNat < 128) c h
  · exact hc c h
  · exact (by decide : ∀ y ∈ ("\"\x7d").toList, y.toNat < 128) c h

/-- For an ASCII message that fits the pad, the token length is a function of
the padding length only. -/
theorem fragment_length_ascii (message : List Char) (padding_length : Nat)
    (key : List Nat) (hascii : ∀ c ∈ message, c.toNat < 128)
    (hlen : message.length ≤ padding_length)
    (hklen : key.length = (utf8Encode (ljust message padding_length)).length) :
    (message_to_base64url_fragment message padding_length key).length =
      4 * ((21 + 8 * ((padding_length + 2) / 3) + 2) / 3) -
        (3 - (21 + 8 * ((padding_length + 2) / 3)) % 3) % 3 := by
  have hpadlen : (utf8Encode (ljust message padding_length)).length = padding_length := by
    rw [utf8Encode_length_ascii _ (ljust_ascii message padding_length hascii)]
    exact ljust_length_of_le message padding_length hlen
  have hkey : key.length = padding_length := by omega
  have hcipherlen : (xorBytes (utf8Encode (ljust message padding_length)) key).length
      = padding_length := by
    rw [xorBytes_length, hpadlen, hkey]
    omega
  have hjsonlen : (jsonPayload (b64EncodeWith b64Table key) (b64EncodeWith b64Table
      (xorBytes (utf8Encode (ljust message padding_length)) key))).length =
      21 + 8 * ((padding_length + 2) / 3) := by
    rw [jsonPayload_length, b64EncodeWith_length, b64EncodeWith_length, hkey, hcipherlen]
    omega
  have hjsonascii := jsonPayload_ascii (b64EncodeWith b64Table key)
    (b64EncodeWith b64Table (xorBytes (utf8Encode (ljust message padding_length)) key))
    (b64encode_ascii key)
    (b64encode_ascii (xorBytes (utf8Encode (ljust message padding_length)) key))
  simp only [message_to_base64url_fragment]
  rw [rstrip_b64_length b64UrlTable eq_not_mem_b64UrlTable]
  rw [utf8Encode_length_ascii _ hjsonascii, hjsonlen]

/-- Characters of a stripped base64 encoding are alphabet characters other
than `=`. -/
theorem rstrip_encode_mem (t : List Char) (ht : ('=' : Char) ∉ t)
    (ht64 : t.length = 64) (bs : List Nat) (hbs : ∀ b ∈ bs, b < 256) :
    ∀ c ∈ rstripChar '=' (b64EncodeWith t bs), c ∈ t ∧ c ≠ '=' := by
  obtain ⟨s, hs, hchars, hlen⟩ := b64EncodeWith_structure t ht bs
  rw [hs, rstripChar_append_replicate '=' s _ hchars]
  intro c hc
  refine ⟨?_, hchars c hc⟩
  rcases b64EncodeWith_mem t ht64 bs hbs c (hs ▸ List.mem_append_left _ hc) with h | h
  · exact h
  · exact absurd h (hchars c hc)

/-! ### Crypto claims -/

/-- C2 (amended): for every plaintext whose UTF-8 encoding is at most
`padding_length` bytes and which carries no leading or trailing whitespace,
and for every key the code can draw at encode time, decoding the token
returns exactly the plaintext. -/
theorem round_trip_exact_of_no_flanking_space (message : List Char)
    (padding_length : Nat) (key : List Nat)
    (_hfit : (utf8Encode message).length ≤ padding_length)
    (hstrip : pyStrip message = message)
    (hklen : key.length = (utf8Encode (ljust message padding_length)).length)
    (hkb : ∀ b ∈ key, b < 256) :
    base64url_fragment_to_message
        (message_to_base64url_fragment message padding_length key) = some message := by
  rw [decode_encode_strip message padding_length key hklen hkb, pyStrip_ljust, hstrip]

/-- Witness for C2 at a concrete input. -/
theorem round_trip_exact_witness :
    base64url_fragment_to_message
        (message_to_base64url_fragment ['A', 'l'] 4 [1, 2, 3, 4]) = some ['A', 'l'] :=
  round_trip_exact_of_no_flanking_space ['A', 'l'] 4 [1, 2, 3, 4] (by decide) (by decide)
    (by decide) (by decide)

/-- C2 counterexample: the plaintext `" A"` satisfies every hypothesis of the
claim (UTF-8 length 2 ≤ 4, a drawable 4-byte key), yet decoding returns `"A"`
and not `" A"`: the decoder's `strip()` removes the leading space. -/
theorem round_trip_fails_on_leading_space :
    (utf8Encode [' ', 'A']).length ≤ 4 ∧
    List.length [0, 0, 0, 0] = (utf8Encode (ljust [' ', 'A'] 4)).length ∧
    (∀ b ∈ [0, 0, 0, 0], b < 256) ∧
    base64url_fragment_to_message
        (message_to_base64url_fragment [' ', 'A'] 4 [0, 0, 0, 0]) = some ['A'] ∧
    base64url_fragment_to_message
        (message_to_base64url_fragment [' ', 'A'] 4 [0, 0, 0, 0]) ≠ some [' ', 'A'] := by
  decide

/-- C9: the test decoder strips both sides, so an ASCII plaintext that fits
the pad round-trips to itself with leading and trailing whitespace removed. -/
theorem decoder_strips_both_sides (message : List Char) (padding_length : Nat)
    (key : List Nat)
    (_hascii : ∀ c ∈ message, c.toNat < 128)
    (_hlen : message.length ≤ padding_length)
    (hklen : key.length = (utf8Encode (ljust message padding_length)).length)
    (hkb : ∀ b ∈ key, b < 256) :
    base64url_fragment_to_message
        (message_to_base64url_fragment message padding_length key) =
      some (pyStrip message) := by
  rw [decode_encode_strip message padding_length key hklen hkb, pyStrip_ljust]

/-- Witness for C9 at a concrete input: `" hi "` decodes to `"hi"`. -/
theorem decoder_strips_both_sides_witness :
    base64url_fragment_to_message
        (message_to_base64url_fragment [' ', 'h', 'i', ' '] 6 [9, 8, 7, 6, 5, 4]) =
      some (pyStrip [' ', 'h', 'i', ' ']) :=
  decoder_strips_both_sides [' ', 'h', 'i', ' '] 6 [9, 8, 7, 6, 5, 4] (by decide)
    (by decide) (by decide) (by decide)

/-- C3 (amended): for ASCII plaintexts of at most `L` characters and any two
keys the code can draw, the two tokens have equal length. -/
theorem token_length_equal_of_ascii (P1 P2 : List Char) (L : Nat) (k1 k2 : List Nat)
    (h1 : ∀ c ∈ P1, c.toNat < 128) (h2 : ∀ c ∈ P2, c.toNat < 128)
    (hl1 : P1.length ≤ L) (hl2 : P2.length ≤ L)
    (hk1 : k1.length = (utf8Encode (ljust P1 L)).length)
    (hk2 : k2.length = (utf8Encode (ljust P2 L)).length) :
    (message_to_base64url_fragment P1 L k1).length =
      (message_to_base64url_fragment P2 L k2).length := by
  rw [fragment_length_ascii P1 L k1 h1 hl1 hk1, fragment_length_ascii P2 L k2 h2 hl2 hk2]

/-- Witness for C3 at a concrete input. -/
theorem token_length_equal_witness :
    (message_to_base64url_fragment ['A', 'l'] 4 [0, 0, 0, 0]).length =
      (message_to_base64url_fragment ['B', 'o', 'b'] 4 [0, 0, 0, 0]).length :=
  token_length_equal_of_ascii ['A', 'l'] ['B', 'o', 'b'] 4 [0, 0, 0, 0] [0, 0, 0, 0]
    (by decide) (by decide) (by decide) (by decide) (by decide) (by decide)

/-- C3 counterexample: `"éa"` and `"abc"` both have UTF-8 length 3 ≤ L = 3,
but `ljust` pads by characters, so the padded byte strings have lengths 4 and
3, and the tokens have lengths 50 and 39. -/
theorem token_length_differs_multibyte :
    (utf8Encode ['é', 'a']).length ≤ 3 ∧
    (utf8Encode ['a', 'b', 'c']).length ≤ 3 ∧
    List.length [0, 0, 0, 0] = (utf8Encode (ljust ['é', 'a'] 3)).length ∧
    List.length [0, 0, 0] = (utf8Encode (ljust ['a', 'b', 'c'] 3)).length ∧
    (message_to_base64url_fragment ['é', 'a'] 3 [0, 0, 0, 0]).length = 50 ∧
    (message_to_base64url_fragment ['a', 'b', 'c'] 3 [0, 0, 0]).length = 39 ∧
    (message_to_base64url_fragment ['é', 'a'] 3 [0, 0, 0, 0]).length ≠
      (message_to_base64url_fragment ['a', 'b', 'c'] 3 [0, 0, 0]).length := by
  decide

/-- C8: every character of every token is in the URL-safe base64 alphabet; no
token contains `=`, `#`, `?`, `/` or `&`. -/
theorem fragment_urlsafe_alphabet (message : List Char) (padding_length : Nat)
    (key : List Nat) :
    (message_to_base64url_fragment message padding_length key).all
      (fun c => decide (c ∈ b64UrlTable) && c != '=' && c != '#' && c != '?' &&
        c != '/' && c != '&') = true := by
  rw [List.all_eq_true]
  intro c hc
  simp only [message_to_base64url_fragment] at hc
  have h := rstrip_encode_mem b64UrlTable eq_not_mem_b64UrlTable (by decide) _
    (utf8Encode_lt _) c hc
  have hforb := (by decide :
    ∀ y ∈ b64UrlTable, y ≠ '#' ∧ y ≠ '?' ∧ y ≠ '/' ∧ y ≠ '&') c h.1
  simp [h.1, h.2, hforb.1, hforb.2.1, hforb.2.2.1, hforb.2.2.2]

end TSS
